import Mathlib

/-!
Verification of the detection consolidation and cross-image deduplication
core of the DeClutter repository.

The embedding below translates, from the Python sources:
  * `calculate_bbox_area` and `select_largest_instances` from `OD.py`
    (detections carry only a class name);
  * `ObjectDetectionPipeline.select_largest_instances` and
    `ObjectDetectionPipeline.calculate_bbox_area` from
    `object_detection_pipeline.py` (detections carry a class name and a
    confidence);
  * the per-image deduplication loop of `analyze_for_resellable_objects`
    from `OD.py` (the `global_seen_objects` set keyed by lowercased class
    names);
  * the whole-image fallback detection of
    `ObjectDetectionPipeline.process_single_image`.

Python dictionaries are embedded as association lists in insertion order;
assignment `d[k] = v` is `dictInsert`, which updates in place when the key
is present (Python dicts keep the original position of an updated key) and
appends otherwise.  Confidences are embedded as rationals: the code only
stores and forwards them, never computes with them.  The crop persister
(`crop_and_save_image`) is an external I/O collaborator; it is modelled as
always succeeding, so every item admitted by the deduplication checks is
emitted.
-/

set_option autoImplicit false

namespace DeClutter

/-- A bounding box `(x_min, y_min, x_max, y_max)` in pixel coordinates. -/
abbrev Coords := Int × Int × Int × Int

/-- Python's `str.lower()`, embedded characterwise (class names are ASCII
COCO labels, so per-character lowering is exact). -/
def pyLower (s : String) : String := String.mk (s.data.map Char.toLower)

/-- Python dict assignment `d[k] = v` on an association list: replace the
value in place when the key is present, append otherwise. -/
def dictInsert {α β : Type} [DecidableEq α] (k : α) (v : β) : List (α × β) → List (α × β)
  | [] => [(k, v)]
  | (k', v') :: rest => if k = k' then (k, v) :: rest else (k', v') :: dictInsert k v rest

/-- Python dict lookup `d.get(k)` on an association list. -/
def dictFind {α β : Type} [DecidableEq α] (k : α) : List (α × β) → Option β
  | [] => none
  | (k', v') :: rest => if k = k' then some v' else dictFind k rest

/-- Building a Python dict by assigning the entries of a list in order. -/
def buildDictAux {α β : Type} [DecidableEq α] : List (α × β) → List (α × β) → List (α × β)
  | acc, [] => acc
  | acc, (k, v) :: rest => buildDictAux (dictInsert k v acc) rest

/-- The Python dict obtained from an entry list (later assignments to the
same key overwrite earlier ones). -/
def buildDict {α β : Type} [DecidableEq α] (l : List (α × β)) : List (α × β) :=
  buildDictAux [] l

namespace OD

/-- `calculate_bbox_area` from `OD.py`: the area of a bounding box. -/
def calculate_bbox_area (coords : Coords) : Int :=
  (coords.2.2.1 - coords.1) * (coords.2.2.2 - coords.2.1)

/-- The loop of `select_largest_instances` in `OD.py` building the
`class_largest` dict: `class_name -> (coords, area)`, keeping the
strictly larger area on conflict. -/
def classLargestAux : List (String × Coords × Int) → List (Coords × String) → List (String × Coords × Int)
  | acc, [] => acc
  | acc, (coords, cname) :: rest =>
      match dictFind cname acc with
      | none => classLargestAux (dictInsert cname (coords, calculate_bbox_area coords) acc) rest
      | some (_, a0) =>
          if calculate_bbox_area coords > a0 then
            classLargestAux (dictInsert cname (coords, calculate_bbox_area coords) acc) rest
          else classLargestAux acc rest

/-- The `class_largest` dict of `select_largest_instances` in `OD.py`. -/
def class_largest (all_detections : List (Coords × String)) : List (String × Coords × Int) :=
  classLargestAux [] all_detections

/-- `select_largest_instances` from `OD.py`: for each class, keep only the
detection with the largest bounding-box area, returned in the original
`coords -> class_name` dict format. -/
def select_largest_instances (all_detections : List (Coords × String)) : List (Coords × String) :=
  buildDict ((class_largest all_detections).map fun e => (e.2.1, e.1))

end OD

namespace Pipeline

/-- One detection value of `object_detection_pipeline.py`: the
`{"class_name": ..., "confidence": ...}` dict stored per box. -/
structure Det where
  class_name : String
  confidence : ℚ
deriving DecidableEq, Repr

/-- `ObjectDetectionPipeline.calculate_bbox_area`. -/
def calculate_bbox_area (coords : Coords) : Int :=
  (coords.2.2.1 - coords.1) * (coords.2.2.2 - coords.2.1)

/-- The loop of `ObjectDetectionPipeline.select_largest_instances` building
`class_largest : class_name -> (coords, detection, area)`. -/
def classLargestAux : List (String × Coords × Det × Int) → List (Coords × Det) → List (String × Coords × Det × Int)
  | acc, [] => acc
  | acc, (coords, det) :: rest =>
      match dictFind det.class_name acc with
      | none => classLargestAux (dictInsert det.class_name (coords, det, calculate_bbox_area coords) acc) rest
      | some (_, _, a0) =>
          if calculate_bbox_area coords > a0 then
            classLargestAux (dictInsert det.class_name (coords, det, calculate_bbox_area coords) acc) rest
          else classLargestAux acc rest

/-- The `class_largest` dict of
`ObjectDetectionPipeline.select_largest_instances`. -/
def class_largest (all_detections : List (Coords × Det)) : List (String × Coords × Det × Int) :=
  classLargestAux [] all_detections

/-- `ObjectDetectionPipeline.select_largest_instances`: keep only the
largest instance of each class, in the original `coords -> detection`
dict format. -/
def select_largest_instances (all_detections : List (Coords × Det)) : List (Coords × Det) :=
  buildDict ((class_largest all_detections).map fun e => (e.2.1, e.2.2.1))

/-- `ObjectDetectionPipeline.filter_resellable_objects`: returns all
detected objects unchanged (Gemini filtering is skipped). -/
def filter_resellable_objects (detected_objects : List String) : List String :=
  detected_objects

/-- The detection-preparation step of
`ObjectDetectionPipeline.process_single_image`: when YOLO returns no
detections, fabricate a single whole-image detection labeled `"item"`
with confidence `1.0` and box `(0, 0, w, h)`. -/
def process_single_image_detections (all_detections : List (Coords × Det)) (w h : Int) : List (Coords × Det) :=
  if all_detections.isEmpty then [((0, 0, w, h), ⟨"item", 1⟩)] else all_detections

end Pipeline

namespace OD

/-- The per-image input of `analyze_for_resellable_objects`: the image
file name, the `all_detections` dict produced from the YOLO boxes, and
the resellable names parsed from the Gemini reply (normalized to
lowercase inside the function, as in the source). -/
structure ImageInput where
  image_id : String
  detections : List (Coords × String)
  resellable_names : List String
deriving DecidableEq, Repr

/-- One kept object of `analyze_for_resellable_objects`: the entry stored
in `new_objects_this_image` (image file name, original-case class name,
box). -/
structure KeptItem where
  image_id : String
  class_label : String
  box : Coords
deriving DecidableEq, Repr

/-- The inner loop of `analyze_for_resellable_objects` over one image's
`filtered_detections`: an item is kept when its lowercased class name is
in the normalized resellable list and not yet in `global_seen_objects`;
keeping it adds the lowercased name to the seen set.  Returns the updated
seen set and the kept items in emission order. -/
def processDetections (image_id : String) (resellable : List String) :
    List (Coords × String) → List String → List String × List KeptItem
  | [], seen => (seen, [])
  | (coords, cname) :: rest, seen =>
      if pyLower cname ∈ resellable ∧ pyLower cname ∉ seen then
        let out := processDetections image_id resellable rest (seen ++ [pyLower cname])
        (out.1, ⟨image_id, cname, coords⟩ :: out.2)
      else processDetections image_id resellable rest seen

/-- The image loop of `analyze_for_resellable_objects`: each image's
detections are consolidated by `select_largest_instances`, the Gemini
names are lowercased, and the deduplication loop threads the
`global_seen_objects` set through the images in order. -/
def analyzeBatch : List ImageInput → List String → List String × List KeptItem
  | [], seen => (seen, [])
  | img :: rest, seen =>
      let step := processDetections img.image_id (img.resellable_names.map pyLower)
        (select_largest_instances img.detections) seen
      let cont := analyzeBatch rest step.1
      (cont.1, step.2 ++ cont.2)

/-- `analyze_for_resellable_objects` from `OD.py`, restricted to its pure
deduplication core: the sequence of kept objects across a batch of
images, starting from an empty `global_seen_objects` set. -/
def analyze_for_resellable_objects (imgs : List ImageInput) : List KeptItem :=
  (analyzeBatch imgs []).2

/-- An image's consolidated detections contain a detection whose
lowercased class name is `l`, and `l` is among the image's normalized
resellable names: exactly the condition under which the deduplication
loop of `analyze_for_resellable_objects` claims `l` for this image. -/
def hasResellableLabel (img : ImageInput) (l : String) : Prop :=
  (∃ e ∈ select_largest_instances img.detections, pyLower e.2 = l) ∧
    l ∈ img.resellable_names.map pyLower

instance (img : ImageInput) (l : String) : Decidable (hasResellableLabel img l) := by
  unfold hasResellableLabel
  infer_instance

/-- Specification engine for `select_largest_instances` of `OD.py`: the
running best `(coords, area)` for one class after a left-to-right scan of
the detection list, replacing the current best only on strictly larger
area, exactly as the source loop does. -/
def selectBest (c : String) : Option (Coords × Int) → List (Coords × String) → Option (Coords × Int)
  | cur, [] => cur
  | cur, (p, c') :: rest =>
      if c' = c then
        match cur with
        | none => selectBest c (some (p, calculate_bbox_area p)) rest
        | some (p0, a0) =>
            if calculate_bbox_area p > a0 then selectBest c (some (p, calculate_bbox_area p)) rest
            else selectBest c (some (p0, a0)) rest
      else selectBest c cur rest

end OD

namespace Pipeline

/-- Specification engine for
`ObjectDetectionPipeline.select_largest_instances`: the running best
`(coords, detection, area)` for one class, replacing only on strictly
larger area. -/
def selectBest (c : String) : Option (Coords × Det × Int) → List (Coords × Det) → Option (Coords × Det × Int)
  | cur, [] => cur
  | cur, (p, d) :: rest =>
      if d.class_name = c then
        match cur with
        | none => selectBest c (some (p, d, calculate_bbox_area p)) rest
        | some (p0, d0, a0) =>
            if calculate_bbox_area p > a0 then selectBest c (some (p, d, calculate_bbox_area p)) rest
            else selectBest c (some (p0, d0, a0)) rest
      else selectBest c cur rest

end Pipeline

section DictLemmas

variable {α β : Type} [DecidableEq α]

theorem dictFind_dictInsert_self (k : α) (v : β) (l : List (α × β)) :
    dictFind k (dictInsert k v l) = some v := by
  induction l with
  | nil => simp [dictInsert, dictFind]
  | cons hd tl ih =>
      obtain ⟨k', v'⟩ := hd
      by_cases h : k = k'
      · simp [dictInsert, dictFind, h]
      · simp [dictInsert, dictFind, h, ih]

theorem dictFind_dictInsert_ne (k k' : α) (v : β) (l : List (α × β)) (h : k ≠ k') :
    dictFind k (dictInsert k' v l) = dictFind k l := by
  induction l with
  | nil => simp [dictInsert, dictFind, h]
  | cons hd tl ih =>
      obtain ⟨k2, v2⟩ := hd
      by_cases h2 : k' = k2
      · subst h2
        simp [dictInsert, dictFind, h]
      · by_cases h3 : k = k2
        · simp [dictInsert, dictFind, h2, h3]
        · simp [dictInsert, dictFind, h2, h3, ih]

theorem mem_dictInsert (x : α × β) (k : α) (v : β) (l : List (α × β))
    (h : x ∈ dictInsert k v l) : x = (k, v) ∨ x ∈ l := by
  induction l with
  | nil => simpa [dictInsert] using h
  | cons hd tl ih =>
      obtain ⟨k', v'⟩ := hd
      by_cases h2 : k = k'
      · simp only [dictInsert, if_pos h2] at h
        rcases List.mem_cons.mp h with h3 | h3
        · exact Or.inl h3
        · exact Or.inr (List.mem_cons_of_mem _ h3)
      · simp only [dictInsert, if_neg h2] at h
        rcases List.mem_cons.mp h with h3 | h3
        · exact Or.inr (h3 ▸ List.mem_cons_self _ _)
        · rcases ih h3 with h4 | h4
          · exact Or.inl h4
          · exact Or.inr (List.mem_cons_of_mem _ h4)

theorem dictInsert_of_not_mem_keys (k : α) (v : β) (l : List (α × β))
    (h : k ∉ l.map Prod.fst) : dictInsert k v l = l ++ [(k, v)] := by
  induction l with
  | nil => simp [dictInsert]
  | cons hd tl ih =>
      obtain ⟨k', v'⟩ := hd
      simp only [List.map_cons, List.mem_cons] at h
      push_neg at h
      simp [dictInsert, h.1, ih h.2]

theorem keys_dictInsert_of_mem (k : α) (v : β) (l : List (α × β))
    (h : k ∈ l.map Prod.fst) : (dictInsert k v l).map Prod.fst = l.map Prod.fst := by
  induction l with
  | nil => simp at h
  | cons hd tl ih =>
      obtain ⟨k', v'⟩ := hd
      by_cases h2 : k = k'
      · simp [dictInsert, h2]
      · simp only [List.map_cons, List.mem_cons] at h
        rcases h with h3 | h3
        · exact absurd h3 h2
        · simp [dictInsert, h2, ih h3]

theorem keys_dictInsert_nodup (k : α) (v : β) (l : List (α × β))
    (h : (l.map Prod.fst).Nodup) : ((dictInsert k v l).map Prod.fst).Nodup := by
  by_cases h2 : k ∈ l.map Prod.fst
  · rw [keys_dictInsert_of_mem k v l h2]; exact h
  · rw [dictInsert_of_not_mem_keys k v l h2]
    simp only [List.map_append, List.map_cons, List.map_nil]
    exact List.Nodup.append h (List.nodup_singleton k) (by simpa using h2)

theorem dictFind_of_mem_of_nodup (k : α) (v : β) (l : List (α × β))
    (hn : (l.map Prod.fst).Nodup) (h : (k, v) ∈ l) : dictFind k l = some v := by
  induction l with
  | nil => simp at h
  | cons hd tl ih =>
      obtain ⟨k', v'⟩ := hd
      simp only [List.map_cons, List.nodup_cons] at hn
      rcases List.mem_cons.mp h with h2 | h2
      · obtain ⟨hk, hv⟩ := Prod.mk.injEq _ _ _ _ ▸ h2
        simp [dictFind, hk.symm, hv]
      · have hne : k ≠ k' := by
          intro he
          exact hn.1 (he ▸ List.mem_map_of_mem Prod.fst h2)
        simp [dictFind, hne, ih hn.2 h2]

theorem dictFind_some_mem (k : α) (v : β) (l : List (α × β))
    (h : dictFind k l = some v) : (k, v) ∈ l := by
  induction l with
  | nil => simp [dictFind] at h
  | cons hd tl ih =>
      obtain ⟨k', v'⟩ := hd
      by_cases h2 : k = k'
      · simp only [dictFind, if_pos h2] at h
        simp [h2, Option.some.injEq _ _ ▸ h]
      · simp only [dictFind, if_neg h2] at h
        exact List.mem_cons_of_mem _ (ih h)

theorem mem_buildDictAux (x : α × β) (acc l : List (α × β))
    (h : x ∈ buildDictAux acc l) : x ∈ acc ∨ x ∈ l := by
  induction l generalizing acc with
  | nil => exact Or.inl h
  | cons hd tl ih =>
      obtain ⟨k, v⟩ := hd
      simp only [buildDictAux] at h
      rcases ih _ h with h2 | h2
      · rcases mem_dictInsert x k v acc h2 with h3 | h3
        · exact Or.inr (h3 ▸ List.mem_cons_self _ _)
        · exact Or.inl h3
      · exact Or.inr (List.mem_cons_of_mem _ h2)

theorem mem_buildDict (x : α × β) (l : List (α × β)) (h : x ∈ buildDict l) : x ∈ l := by
  rcases mem_buildDictAux x [] l h with h2 | h2
  · simp at h2
  · exact h2

theorem buildDictAux_of_nodup (acc l : List (α × β))
    (hd : ∀ k ∈ l.map Prod.fst, k ∉ acc.map Prod.fst)
    (hn : (l.map Prod.fst).Nodup) : buildDictAux acc l = acc ++ l := by
  induction l generalizing acc with
  | nil => simp [buildDictAux]
  | cons hd2 tl ih =>
      obtain ⟨k, v⟩ := hd2
      simp only [List.map_cons, List.nodup_cons] at hn
      have hk : k ∉ acc.map Prod.fst := hd k (by simp)
      simp only [buildDictAux]
      rw [dictInsert_of_not_mem_keys k v acc hk]
      rw [ih (acc ++ [(k, v)]) ?_ hn.2]
      · simp
      · intro k' hk'
        simp only [List.map_append, List.map_cons, List.map_nil, List.mem_append,
          List.mem_singleton]
        push_neg
        refine ⟨hd k' (by simp [hk']), ?_⟩
        intro he
        exact hn.1 (he ▸ hk')

theorem buildDict_of_nodup (l : List (α × β)) (hn : (l.map Prod.fst).Nodup) :
    buildDict l = l := by
  simpa using buildDictAux_of_nodup [] l (by simp) hn

theorem length_le_dictInsert (k : α) (v : β) (l : List (α × β)) :
    l.length ≤ (dictInsert k v l).length := by
  induction l with
  | nil => simp [dictInsert]
  | cons hd tl ih =>
      obtain ⟨k', v'⟩ := hd
      by_cases h : k = k'
      · simp [dictInsert, h]
      · simpa [dictInsert, h] using ih

theorem one_le_length_dictInsert (k : α) (v : β) (l : List (α × β)) :
    1 ≤ (dictInsert k v l).length := by
  cases l with
  | nil => simp [dictInsert]
  | cons hd tl =>
      obtain ⟨k', v'⟩ := hd
      by_cases h : k = k' <;> simp [dictInsert, h]

theorem eq_of_mem_keys_nodup (l : List (α × β)) (hn : (l.map Prod.fst).Nodup)
    (k : α) (v1 v2 : β) (h1 : (k, v1) ∈ l) (h2 : (k, v2) ∈ l) : v1 = v2 := by
  have e1 := dictFind_of_mem_of_nodup k v1 l hn h1
  have e2 := dictFind_of_mem_of_nodup k v2 l hn h2
  rw [e1] at e2
  exact Option.some.inj e2

end DictLemmas

namespace OD

theorem dictFind_classLargestAux (c : String) (dets : List (Coords × String))
    (acc : List (String × Coords × Int)) :
    dictFind c (classLargestAux acc dets) = selectBest c (dictFind c acc) dets := by
  induction dets generalizing acc with
  | nil => simp [classLargestAux, selectBest]
  | cons hd tl ih =>
      obtain ⟨p, c'⟩ := hd
      by_cases hc : c' = c
      · subst hc
        cases hfind : dictFind c' acc with
        | none =>
            simp only [classLargestAux, hfind, selectBest, if_pos rfl, if_true, eq_self_iff_true]
            rw [ih, dictFind_dictInsert_self]
        | some pa =>
            obtain ⟨p0, a0⟩ := pa
            by_cases hgt : calculate_bbox_area p > a0
            · simp only [classLargestAux, hfind, selectBest, if_pos rfl, if_true,
                eq_self_iff_true, if_pos hgt]
              rw [ih, dictFind_dictInsert_self]
            · simp only [classLargestAux, hfind, selectBest, if_pos rfl, if_true,
                eq_self_iff_true, if_neg hgt]
              rw [ih, hfind]
      · have hcc : c ≠ c' := fun h => hc h.symm
        cases hfind : dictFind c' acc with
        | none =>
            simp only [classLargestAux, hfind, selectBest, if_neg hc]
            rw [ih, dictFind_dictInsert_ne c c' _ acc hcc]
        | some pa =>
            obtain ⟨p0, a0⟩ := pa
            by_cases hgt : calculate_bbox_area p > a0
            · simp only [classLargestAux, hfind, selectBest, if_neg hc, if_pos hgt]
              rw [ih, dictFind_dictInsert_ne c c' _ acc hcc]
            · simp only [classLargestAux, hfind, selectBest, if_neg hc, if_neg hgt]
              rw [ih]

theorem selectBest_eq_none_iff (c : String) (dets : List (Coords × String))
    (cur : Option (Coords × Int)) :
    selectBest c cur dets = none ↔ (cur = none ∧ ∀ e ∈ dets, e.2 ≠ c) := by
  induction dets generalizing cur with
  | nil => simp [selectBest]
  | cons hd tl ih =>
      obtain ⟨p, c'⟩ := hd
      by_cases hc : c' = c
      · subst hc
        cases cur with
        | none =>
            simp only [selectBest, if_pos rfl, if_true, eq_self_iff_true]
            rw [ih]
            simp
        | some pa =>
            obtain ⟨p0, a0⟩ := pa
            by_cases hgt : calculate_bbox_area p > a0
            · simp only [selectBest, if_pos rfl, if_true, eq_self_iff_true, if_pos hgt]
              rw [ih]
              simp
            · simp only [selectBest, if_pos rfl, if_true, eq_self_iff_true, if_neg hgt]
              rw [ih]
              simp
      · simp only [selectBest, if_neg hc]
        rw [ih]
        constructor
        · rintro ⟨h1, h2⟩
          refine ⟨h1, ?_⟩
          intro e he
          rcases List.mem_cons.mp he with he2 | he2
          · rw [he2]; exact hc
          · exact h2 e he2
        · rintro ⟨h1, h2⟩
          exact ⟨h1, fun e he => h2 e (List.mem_cons_of_mem _ he)⟩

theorem selectBest_sound (c : String) (dets : List (Coords × String))
    (cur : Option (Coords × Int)) (p : Coords) (a : Int)
    (h : selectBest c cur dets = some (p, a)) :
    (cur = some (p, a) ∧ ∀ q : Coords, (q, c) ∈ dets → calculate_bbox_area q ≤ a)
    ∨ (a = calculate_bbox_area p
        ∧ (∀ (p0 : Coords) (a0 : Int), cur = some (p0, a0) → a0 < a)
        ∧ ∃ l1 l2, dets = l1 ++ (p, c) :: l2
            ∧ (∀ q : Coords, (q, c) ∈ l1 → calculate_bbox_area q < a)
            ∧ (∀ q : Coords, (q, c) ∈ l2 → calculate_bbox_area q ≤ a)) := by
  induction dets generalizing cur with
  | nil =>
      left
      refine ⟨h, ?_⟩
      intro q hq
      simp at hq
  | cons hd tl ih =>
      obtain ⟨q0, c'⟩ := hd
      by_cases hc : c' = c
      · subst hc
        cases cur with
        | none =>
            simp only [selectBest, if_pos rfl, if_true, eq_self_iff_true] at h
            rcases ih _ h with ⟨hcur, hbound⟩ | ⟨ha, hlt, l1, l2, hsplit, h1, h2⟩
            · obtain ⟨hq, haa⟩ := Prod.mk.injEq _ _ _ _ ▸ Option.some.inj hcur
              right
              refine ⟨by rw [← haa, hq], ?_, [], tl, ?_, ?_, ?_⟩
              · intro p0 a0 hx; exact Option.noConfusion hx
              · simp [hq]
              · intro q hq2; simp at hq2
              · intro q hq2
                exact hbound q hq2
            · right
              refine ⟨ha, ?_, (q0, c') :: l1, l2, ?_, ?_, h2⟩
              · intro p0 a0 hx; exact Option.noConfusion hx
              · rw [hsplit]; simp
              · intro q hq2
                rcases List.mem_cons.mp hq2 with hq3 | hq3
                · have hq4 : q = q0 := congrArg Prod.fst hq3
                  rw [hq4]
                  exact hlt q0 (calculate_bbox_area q0) rfl
                · exact h1 q hq3
        | some pa =>
            obtain ⟨p0, a0⟩ := pa
            by_cases hgt : calculate_bbox_area q0 > a0
            · simp only [selectBest, if_pos rfl, if_true, eq_self_iff_true, if_pos hgt] at h
              rcases ih _ h with ⟨hcur, hbound⟩ | ⟨ha, hlt, l1, l2, hsplit, h1, h2⟩
              · obtain ⟨hq, haa⟩ := Prod.mk.injEq _ _ _ _ ▸ Option.some.inj hcur
                right
                refine ⟨by rw [← haa, hq], ?_, [], tl, ?_, ?_, ?_⟩
                · intro p1 a1 hx
                  obtain ⟨hp1, ha1⟩ := Prod.mk.injEq _ _ _ _ ▸ Option.some.inj hx
                  rw [← ha1, ← haa]
                  exact hgt
                · simp [hq]
                · intro q hq2; simp at hq2
                · intro q hq2
                  exact hbound q hq2
              · right
                have hq0lt : calculate_bbox_area q0 < a :=
                  hlt q0 (calculate_bbox_area q0) rfl
                refine ⟨ha, ?_, (q0, c') :: l1, l2, ?_, ?_, h2⟩
                · intro p1 a1 hx
                  obtain ⟨hp1, ha1⟩ := Prod.mk.injEq _ _ _ _ ▸ Option.some.inj hx
                  rw [← ha1]
                  exact lt_trans hgt hq0lt
                · rw [hsplit]; simp
                · intro q hq2
                  rcases List.mem_cons.mp hq2 with hq3 | hq3
                  · have hq4 : q = q0 := congrArg Prod.fst hq3
                    rw [hq4]
                    exact hq0lt
                  · exact h1 q hq3
            · simp only [selectBest, if_pos rfl, if_true, eq_self_iff_true, if_neg hgt] at h
              rcases ih _ h with ⟨hcur, hbound⟩ | ⟨ha, hlt, l1, l2, hsplit, h1, h2⟩
              · left
                refine ⟨hcur, ?_⟩
                intro q hq2
                rcases List.mem_cons.mp hq2 with hq3 | hq3
                · have hq4 : q = q0 := congrArg Prod.fst hq3
                  obtain ⟨hp0, ha0⟩ := Prod.mk.injEq _ _ _ _ ▸ Option.some.inj hcur
                  rw [hq4, ← ha0]
                  exact not_lt.mp hgt
                · exact hbound q hq3
              · right
                have ha0lt : a0 < a := hlt p0 a0 rfl
                refine ⟨ha, ?_, (q0, c') :: l1, l2, ?_, ?_, h2⟩
                · intro p1 a1 hx
                  obtain ⟨hp1, ha1⟩ := Prod.mk.injEq _ _ _ _ ▸ Option.some.inj hx
                  rw [← ha1]
                  exact ha0lt
                · rw [hsplit]; simp
                · intro q hq2
                  rcases List.mem_cons.mp hq2 with hq3 | hq3
                  · have hq4 : q = q0 := congrArg Prod.fst hq3
                    rw [hq4]
                    exact lt_of_le_of_lt (not_lt.mp hgt) ha0lt
                  · exact h1 q hq3
      · simp only [selectBest, if_neg hc] at h
        rcases ih _ h with ⟨hcur, hbound⟩ | ⟨ha, hlt, l1, l2, hsplit, h1, h2⟩
        · left
          refine ⟨hcur, ?_⟩
          intro q hq2
          rcases List.mem_cons.mp hq2 with hq3 | hq3
          · exact absurd (congrArg Prod.snd hq3).symm hc
          · exact hbound q hq3
        · right
          refine ⟨ha, hlt, (q0, c') :: l1, l2, ?_, ?_, h2⟩
          · rw [hsplit]; simp
          · intro q hq2
            rcases List.mem_cons.mp hq2 with hq3 | hq3
            · exact absurd (congrArg Prod.snd hq3).symm hc
            · exact h1 q hq3

theorem selectBest_stay (c : String) (l2 : List (Coords × String)) (p : Coords) (a : Int)
    (h2 : ∀ q : Coords, (q, c) ∈ l2 → calculate_bbox_area q ≤ a) :
    selectBest c (some (p, a)) l2 = some (p, a) := by
  induction l2 with
  | nil => simp [selectBest]
  | cons hd tl ih =>
      obtain ⟨q, c'⟩ := hd
      by_cases hc : c' = c
      · subst hc
        have hle : ¬ (calculate_bbox_area q > a) :=
          not_lt.mpr (h2 q (List.mem_cons_self _ _))
        simp only [selectBest, if_pos rfl, if_true, eq_self_iff_true, if_neg hle]
        exact ih (fun q2 hq2 => h2 q2 (List.mem_cons_of_mem _ hq2))
      · simp only [selectBest, if_neg hc]
        exact ih (fun q2 hq2 => h2 q2 (List.mem_cons_of_mem _ hq2))

theorem selectBest_complete (c : String) (l1 : List (Coords × String)) (p : Coords)
    (l2 : List (Coords × String)) (cur : Option (Coords × Int))
    (hcur : cur = none ∨ ∃ p0 a0, cur = some (p0, a0) ∧ a0 < calculate_bbox_area p)
    (h1 : ∀ q : Coords, (q, c) ∈ l1 → calculate_bbox_area q < calculate_bbox_area p)
    (h2 : ∀ q : Coords, (q, c) ∈ l2 → calculate_bbox_area q ≤ calculate_bbox_area p) :
    selectBest c cur (l1 ++ (p, c) :: l2) = some (p, calculate_bbox_area p) := by
  induction l1 generalizing cur with
  | nil =>
      simp only [List.nil_append]
      rcases hcur with hcur | ⟨p0, a0, hcur, hlt⟩
      · subst hcur
        simp only [selectBest, if_pos rfl, if_true, eq_self_iff_true]
        exact selectBest_stay c l2 p _ h2
      · subst hcur
        simp only [selectBest, if_pos rfl, if_true, eq_self_iff_true, if_pos hlt]
        exact selectBest_stay c l2 p _ h2
  | cons hd tl ih =>
      obtain ⟨q, c'⟩ := hd
      by_cases hc : c' = c
      · subst hc
        have hqlt : calculate_bbox_area q < calculate_bbox_area p :=
          h1 q (List.mem_cons_self _ _)
        have h1' : ∀ q2 : Coords, (q2, c') ∈ tl → calculate_bbox_area q2 < calculate_bbox_area p :=
          fun q2 hq2 => h1 q2 (List.mem_cons_of_mem _ hq2)
        rcases hcur with hcur | ⟨p0, a0, hcur, hlt⟩
        · subst hcur
          simp only [List.cons_append, selectBest, if_pos rfl, if_true, eq_self_iff_true]
          exact ih _ (Or.inr ⟨q, _, rfl, hqlt⟩) h1'
        · subst hcur
          by_cases hgt : calculate_bbox_area q > a0
          · simp only [List.cons_append, selectBest, if_pos rfl, if_true, eq_self_iff_true,
              if_pos hgt]
            exact ih _ (Or.inr ⟨q, _, rfl, hqlt⟩) h1'
          · simp only [List.cons_append, selectBest, if_pos rfl, if_true, eq_self_iff_true,
              if_neg hgt]
            exact ih _ (Or.inr ⟨p0, a0, rfl, hlt⟩) h1'
      · simp only [List.cons_append, selectBest, if_neg hc]
        exact ih _ hcur (fun q2 hq2 => h1 q2 (List.mem_cons_of_mem _ hq2))

theorem dictFind_isSome_iff_mem_keys {α β : Type} [DecidableEq α] (k : α) (l : List (α × β)) :
    (dictFind k l).isSome ↔ k ∈ l.map Prod.fst := by
  induction l with
  | nil => simp [dictFind]
  | cons hd tl ih =>
      obtain ⟨k', v'⟩ := hd
      by_cases h : k = k'
      · simp [dictFind, h]
      · simp [dictFind, h, ih]

theorem length_le_buildDictAux {α β : Type} [DecidableEq α] (l acc : List (α × β)) :
    acc.length ≤ (buildDictAux acc l).length := by
  induction l generalizing acc with
  | nil => simp [buildDictAux]
  | cons hd tl ih =>
      obtain ⟨k, v⟩ := hd
      simp only [buildDictAux]
      exact le_trans (length_le_dictInsert k v acc) (ih _)

theorem buildDict_eq_nil_iff {α β : Type} [DecidableEq α] (l : List (α × β)) :
    buildDict l = [] ↔ l = [] := by
  constructor
  · intro h
    cases l with
    | nil => rfl
    | cons hd tl =>
        obtain ⟨k, v⟩ := hd
        exfalso
        have h1 : 1 ≤ (buildDictAux (dictInsert k v []) tl).length :=
          le_trans (one_le_length_dictInsert k v []) (length_le_buildDictAux tl _)
        have h2 : buildDict ((k, v) :: tl) = buildDictAux (dictInsert k v []) tl := rfl
        rw [h2] at h
        rw [h] at h1
        simp at h1
  · intro h
    rw [h]
    rfl

theorem keys_classLargestAux_nodup (dets : List (Coords × String))
    (acc : List (String × Coords × Int)) (h : (acc.map Prod.fst).Nodup) :
    ((classLargestAux acc dets).map Prod.fst).Nodup := by
  induction dets generalizing acc with
  | nil => exact h
  | cons hd tl ih =>
      obtain ⟨p, c'⟩ := hd
      cases hfind : dictFind c' acc with
      | none =>
          simp only [classLargestAux, hfind]
          exact ih _ (keys_dictInsert_nodup _ _ _ h)
      | some pa =>
          obtain ⟨p0, a0⟩ := pa
          by_cases hgt : calculate_bbox_area p > a0
          · simp only [classLargestAux, hfind, if_pos hgt]
            exact ih _ (keys_dictInsert_nodup _ _ _ h)
          · simp only [classLargestAux, hfind, if_neg hgt]
            exact ih _ h

theorem mem_classLargestAux (dets : List (Coords × String))
    (acc : List (String × Coords × Int)) (x : String × Coords × Int)
    (h : x ∈ classLargestAux acc dets) :
    x ∈ acc ∨ (x.2.2 = calculate_bbox_area x.2.1 ∧ (x.2.1, x.1) ∈ dets) := by
  induction dets generalizing acc with
  | nil => exact Or.inl h
  | cons hd tl ih =>
      obtain ⟨p, c'⟩ := hd
      have step : ∀ acc2 : List (String × Coords × Int),
          x ∈ classLargestAux acc2 tl →
          (x ∈ acc2 ∨ (x.2.2 = calculate_bbox_area x.2.1 ∧ (x.2.1, x.1) ∈ (p, c') :: tl)) := by
        intro acc2 hx
        rcases ih acc2 hx with h2 | ⟨h2, h3⟩
        · exact Or.inl h2
        · exact Or.inr ⟨h2, List.mem_cons_of_mem _ h3⟩
      cases hfind : dictFind c' acc with
      | none =>
          simp only [classLargestAux, hfind] at h
          rcases step _ h with h2 | h2
          · rcases mem_dictInsert x c' _ acc h2 with h3 | h3
            · right
              rw [h3]
              exact ⟨rfl, List.mem_cons_self _ _⟩
            · exact Or.inl h3
          · exact Or.inr h2
      | some pa =>
          obtain ⟨p0, a0⟩ := pa
          by_cases hgt : calculate_bbox_area p > a0
          · simp only [classLargestAux, hfind, if_pos hgt] at h
            rcases step _ h with h2 | h2
            · rcases mem_dictInsert x c' _ acc h2 with h3 | h3
              · right
                rw [h3]
                exact ⟨rfl, List.mem_cons_self _ _⟩
              · exact Or.inl h3
            · exact Or.inr h2
          · simp only [classLargestAux, hfind, if_neg hgt] at h
            exact step _ h

theorem length_le_classLargestAux (dets : List (Coords × String))
    (acc : List (String × Coords × Int)) :
    acc.length ≤ (classLargestAux acc dets).length := by
  induction dets generalizing acc with
  | nil => simp [classLargestAux]
  | cons hd tl ih =>
      obtain ⟨p, c'⟩ := hd
      cases hfind : dictFind c' acc with
      | none =>
          simp only [classLargestAux, hfind]
          exact le_trans (length_le_dictInsert _ _ _) (ih _)
      | some pa =>
          obtain ⟨p0, a0⟩ := pa
          by_cases hgt : calculate_bbox_area p > a0
          · simp only [classLargestAux, hfind, if_pos hgt]
            exact le_trans (length_le_dictInsert _ _ _) (ih _)
          · simp only [classLargestAux, hfind, if_neg hgt]
            exact ih _

theorem class_largest_eq_nil_iff (dets : List (Coords × String)) :
    class_largest dets = [] ↔ dets = [] := by
  constructor
  · intro h
    cases dets with
    | nil => rfl
    | cons hd tl =>
        obtain ⟨p, c⟩ := hd
        exfalso
        have h1 : class_largest ((p, c) :: tl)
            = classLargestAux [(c, (p, calculate_bbox_area p))] tl := by
          simp [class_largest, classLargestAux, dictFind, dictInsert]
        have h2 : 1 ≤ (classLargestAux [(c, (p, calculate_bbox_area p))] tl).length := by
          simpa using length_le_classLargestAux tl [(c, (p, calculate_bbox_area p))]
        rw [h1] at h
        rw [h] at h2
        simp at h2
  · intro h
    rw [h]
    rfl

theorem winners_coords_nodup (dets : List (Coords × String))
    (h : (dets.map Prod.fst).Nodup) :
    ((class_largest dets).map fun e => e.2.1).Nodup := by
  have hkeys : ((class_largest dets).map Prod.fst).Nodup :=
    keys_classLargestAux_nodup dets [] (by simp)
  have hpw : (class_largest dets).Pairwise (fun e1 e2 => e1.1 ≠ e2.1) :=
    (List.pairwise_map).mp hkeys
  have hpw2 : (class_largest dets).Pairwise (fun e1 e2 => e1.2.1 ≠ e2.2.1) := by
    refine List.Pairwise.imp_of_mem ?_ hpw
    intro e1 e2 h1 h2 hne heq
    rcases mem_classLargestAux dets [] e1 h1 with h3 | ⟨_, h3⟩
    · simp at h3
    rcases mem_classLargestAux dets [] e2 h2 with h4 | ⟨_, h4⟩
    · simp at h4
    rw [heq] at h3
    exact hne (eq_of_mem_keys_nodup dets h e2.2.1 e1.1 e2.1 h3 h4)
  exact (List.pairwise_map).mpr hpw2

theorem select_largest_eq_of_keys_nodup (dets : List (Coords × String))
    (h : (dets.map Prod.fst).Nodup) :
    select_largest_instances dets = (class_largest dets).map fun e => (e.2.1, e.1) := by
  unfold select_largest_instances
  refine buildDict_of_nodup _ ?_
  rw [List.map_map]
  exact winners_coords_nodup dets h

/-- C4: for a one-image detection dict, the `class_largest` mapping built
by `select_largest_instances` has exactly the distinct class labels of
the input as keys (one entry per distinct label), the returned dict's
values are exactly those labels, and both the mapping and the returned
dict are empty if and only if the input is empty. -/
theorem consolidation_keys_eq_distinct_labels (dets : List (Coords × String))
    (h : (dets.map Prod.fst).Nodup) :
    (∀ c : String, (dictFind c (class_largest dets)).isSome ↔ c ∈ dets.map Prod.snd)
    ∧ ((class_largest dets).map Prod.fst).Nodup
    ∧ (∀ c : String, c ∈ (select_largest_instances dets).map Prod.snd ↔ c ∈ dets.map Prod.snd)
    ∧ (class_largest dets = [] ↔ dets = [])
    ∧ (select_largest_instances dets = [] ↔ dets = []) := by
  have hfind : ∀ c : String, (dictFind c (class_largest dets)).isSome ↔ c ∈ dets.map Prod.snd := by
    intro c
    have h1 : dictFind c (class_largest dets) = selectBest c none dets := by
      have := dictFind_classLargestAux c dets []
      simpa [dictFind] using this
    rw [h1]
    rw [Option.isSome_iff_ne_none]
    rw [Ne, selectBest_eq_none_iff]
    constructor
    · intro h2
      by_contra h3
      refine h2 ⟨rfl, ?_⟩
      intro e he hec
      exact h3 (hec ▸ List.mem_map_of_mem Prod.snd he)
    · intro h2 h3
      rcases List.mem_map.mp h2 with ⟨e, he, hec⟩
      exact h3.2 e he hec
  refine ⟨hfind, keys_classLargestAux_nodup dets [] (by simp), ?_, class_largest_eq_nil_iff dets, ?_⟩
  · intro c
    rw [select_largest_eq_of_keys_nodup dets h]
    rw [List.map_map]
    have hsnd : (Prod.snd ∘ fun e : String × Coords × Int => (e.2.1, e.1)) = Prod.fst := rfl
    rw [hsnd]
    rw [← dictFind_isSome_iff_mem_keys]
    exact hfind c
  · unfold select_largest_instances
    rw [buildDict_eq_nil_iff, List.map_eq_nil_iff]
    exact class_largest_eq_nil_iff dets

/-- C4 witness: a concrete two-label input with three detections. -/
theorem consolidation_keys_eq_distinct_labels_witness :
    (∀ c : String,
        (dictFind c (class_largest [((0, 0, 2, 2), "cup"), ((0, 0, 3, 3), "cup"), ((1, 1, 2, 2), "tv")])).isSome
          ↔ c ∈ ([((0, 0, 2, 2), "cup"), ((0, 0, 3, 3), "cup"), ((1, 1, 2, 2), "tv")] : List (Coords × String)).map Prod.snd)
    ∧ ((class_largest [((0, 0, 2, 2), "cup"), ((0, 0, 3, 3), "cup"), ((1, 1, 2, 2), "tv")]).map Prod.fst).Nodup
    ∧ (∀ c : String,
        c ∈ (select_largest_instances [((0, 0, 2, 2), "cup"), ((0, 0, 3, 3), "cup"), ((1, 1, 2, 2), "tv")]).map Prod.snd
          ↔ c ∈ ([((0, 0, 2, 2), "cup"), ((0, 0, 3, 3), "cup"), ((1, 1, 2, 2), "tv")] : List (Coords × String)).map Prod.snd)
    ∧ (class_largest [((0, 0, 2, 2), "cup"), ((0, 0, 3, 3), "cup"), ((1, 1, 2, 2), "tv")] = []
        ↔ ([((0, 0, 2, 2), "cup"), ((0, 0, 3, 3), "cup"), ((1, 1, 2, 2), "tv")] : List (Coords × String)) = [])
    ∧ (select_largest_instances [((0, 0, 2, 2), "cup"), ((0, 0, 3, 3), "cup"), ((1, 1, 2, 2), "tv")] = []
        ↔ ([((0, 0, 2, 2), "cup"), ((0, 0, 3, 3), "cup"), ((1, 1, 2, 2), "tv")] : List (Coords × String)) = []) :=
  consolidation_keys_eq_distinct_labels
    [((0, 0, 2, 2), "cup"), ((0, 0, 3, 3), "cup"), ((1, 1, 2, 2), "tv")] (by decide)

/-- C6: when the maximal area for a class is attained more than once, the
first-encountered maximal detection in input iteration order is the one
kept: if `(p, c)` is preceded only by strictly smaller same-class boxes
and followed only by no-larger ones, then `p` is the box recorded for `c`
and `(p, c)` is in the returned dict.  The selection is a pure function
of the input list (deterministic within one pass). -/
theorem tie_break_first_encountered (dets : List (Coords × String))
    (h : (dets.map Prod.fst).Nodup) (c : String) (p : Coords)
    (l1 l2 : List (Coords × String)) (hsplit : dets = l1 ++ (p, c) :: l2)
    (h1 : ∀ q : Coords, (q, c) ∈ l1 → calculate_bbox_area q < calculate_bbox_area p)
    (h2 : ∀ q : Coords, (q, c) ∈ l2 → calculate_bbox_area q ≤ calculate_bbox_area p) :
    dictFind c (class_largest dets) = some (p, calculate_bbox_area p)
    ∧ (p, c) ∈ select_largest_instances dets := by
  have hfind : dictFind c (class_largest dets) = some (p, calculate_bbox_area p) := by
    have hmaster : dictFind c (class_largest dets) = selectBest c none dets := by
      have := dictFind_classLargestAux c dets []
      simpa [dictFind] using this
    rw [hmaster, hsplit]
    exact selectBest_complete c l1 p l2 none (Or.inl rfl) h1 h2
  refine ⟨hfind, ?_⟩
  rw [select_largest_eq_of_keys_nodup dets h]
  have hmem : (c, (p, calculate_bbox_area p)) ∈ class_largest dets :=
    dictFind_some_mem c _ _ hfind
  exact List.mem_map.mpr ⟨(c, (p, calculate_bbox_area p)), hmem, rfl⟩

/-- C6 witness: two same-class boxes with exactly equal areas `4`; the
first one is kept. -/
theorem tie_break_first_encountered_witness :
    dictFind "cup" (class_largest [((0, 0, 2, 2), "cup"), ((0, 0, 1, 4), "cup")])
        = some ((0, 0, 2, 2), calculate_bbox_area (0, 0, 2, 2))
    ∧ ((0, 0, 2, 2), "cup") ∈ select_largest_instances [((0, 0, 2, 2), "cup"), ((0, 0, 1, 4), "cup")] :=
  tie_break_first_encountered [((0, 0, 2, 2), "cup"), ((0, 0, 1, 4), "cup")] (by decide)
    "cup" (0, 0, 2, 2) [] [((0, 0, 1, 4), "cup")] rfl
    (by intro q hq; simp at hq)
    (by
      intro q hq
      have h := List.mem_singleton.mp hq
      obtain ⟨h1, h2⟩ := Prod.mk.injEq _ _ _ _ ▸ h
      rw [h1]
      decide)

/-- C8: consolidation and the deduplication core are total functions that
return empty results on empty input with no state mutation, and accept
zero-area boxes: an empty detection dict consolidates to the empty dict,
an empty batch yields no kept items and leaves the claimed set unchanged,
a single zero-area box is consolidated (not dropped and no exception),
and an image with zero detections contributes nothing and leaves the
claimed set unchanged. -/
theorem degenerate_inputs_safe :
    select_largest_instances [] = []
    ∧ analyze_for_resellable_objects [] = []
    ∧ (∀ seen : List String, analyzeBatch [] seen = (seen, []))
    ∧ (∀ c : String, select_largest_instances [((0, 0, 0, 0), c)] = [((0, 0, 0, 0), c)])
    ∧ (∀ (iid : String) (res : List String) (rest : List ImageInput) (seen : List String),
        analyzeBatch (({ image_id := iid, detections := [], resellable_names := res } : ImageInput) :: rest) seen
          = analyzeBatch rest seen) := by
  refine ⟨rfl, rfl, fun seen => rfl, fun c => rfl, ?_⟩
  intro iid res rest seen
  simp [analyzeBatch, processDetections, select_largest_instances, class_largest,
    classLargestAux, buildDict, buildDictAux]

end OD

namespace Pipeline

theorem dictFind_classLargestAuxP (c : String) (dets : List (Coords × Det))
    (acc : List (String × Coords × Det × Int)) :
    dictFind c (classLargestAux acc dets) = selectBest c (dictFind c acc) dets := by
  induction dets generalizing acc with
  | nil => simp [classLargestAux, selectBest]
  | cons hd tl ih =>
      obtain ⟨p, d⟩ := hd
      by_cases hc : d.class_name = c
      · subst hc
        cases hfind : dictFind d.class_name acc with
        | none =>
            simp only [classLargestAux, hfind, selectBest, if_pos rfl, if_true, eq_self_iff_true]
            rw [ih, dictFind_dictInsert_self]
        | some pda =>
            obtain ⟨p0, d0, a0⟩ := pda
            by_cases hgt : calculate_bbox_area p > a0
            · simp only [classLargestAux, hfind, selectBest, if_pos rfl, if_true,
                eq_self_iff_true, if_pos hgt]
              rw [ih, dictFind_dictInsert_self]
            · simp only [classLargestAux, hfind, selectBest, if_pos rfl, if_true,
                eq_self_iff_true, if_neg hgt]
              rw [ih, hfind]
      · have hcc : c ≠ d.class_name := fun h => hc h.symm
        cases hfind : dictFind d.class_name acc with
        | none =>
            simp only [classLargestAux, hfind, selectBest, if_neg hc]
            rw [ih, dictFind_dictInsert_ne c d.class_name _ acc hcc]
        | some pda =>
            obtain ⟨p0, d0, a0⟩ := pda
            by_cases hgt : calculate_bbox_area p > a0
            · simp only [classLargestAux, hfind, selectBest, if_neg hc, if_pos hgt]
              rw [ih, dictFind_dictInsert_ne c d.class_name _ acc hcc]
            · simp only [classLargestAux, hfind, selectBest, if_neg hc, if_neg hgt]
              rw [ih]

theorem selectBest_eq_none_iffP (c : String) (dets : List (Coords × Det))
    (cur : Option (Coords × Det × Int)) :
    selectBest c cur dets = none ↔ (cur = none ∧ ∀ e ∈ dets, e.2.class_name ≠ c) := by
  induction dets generalizing cur with
  | nil => simp [selectBest]
  | cons hd tl ih =>
      obtain ⟨p, d⟩ := hd
      by_cases hc : d.class_name = c
      · subst hc
        cases cur with
        | none =>
            simp only [selectBest, if_pos rfl, if_true, eq_self_iff_true]
            rw [ih]
            simp
        | some pda =>
            obtain ⟨p0, d0, a0⟩ := pda
            by_cases hgt : calculate_bbox_area p > a0
            · simp only [selectBest, if_pos rfl, if_true, eq_self_iff_true, if_pos hgt]
              rw [ih]
              simp
            · simp only [selectBest, if_pos rfl, if_true, eq_self_iff_true, if_neg hgt]
              rw [ih]
              simp
      · simp only [selectBest, if_neg hc]
        rw [ih]
        constructor
        · rintro ⟨h1, h2⟩
          refine ⟨h1, ?_⟩
          intro e he
          rcases List.mem_cons.mp he with he2 | he2
          · rw [he2]; exact hc
          · exact h2 e he2
        · rintro ⟨h1, h2⟩
          exact ⟨h1, fun e he => h2 e (List.mem_cons_of_mem _ he)⟩

theorem selectBest_soundP (c : String) (dets : List (Coords × Det))
    (cur : Option (Coords × Det × Int)) (p : Coords) (d : Det) (a : Int)
    (h : selectBest c cur dets = some (p, d, a)) :
    (cur = some (p, d, a)
        ∧ ∀ (q : Coords) (f : Det), (q, f) ∈ dets → f.class_name = c → calculate_bbox_area q ≤ a)
    ∨ (a = calculate_bbox_area p ∧ d.class_name = c
        ∧ (∀ (p0 : Coords) (d0 : Det) (a0 : Int), cur = some (p0, d0, a0) → a0 < a)
        ∧ ∃ l1 l2, dets = l1 ++ (p, d) :: l2
            ∧ (∀ (q : Coords) (f : Det), (q, f) ∈ l1 → f.class_name = c → calculate_bbox_area q < a)
            ∧ (∀ (q : Coords) (f : Det), (q, f) ∈ l2 → f.class_name = c → calculate_bbox_area q ≤ a)) := by
  induction dets generalizing cur with
  | nil =>
      left
      refine ⟨h, ?_⟩
      intro q f hq
      simp at hq
  | cons hd tl ih =>
      obtain ⟨q0, d0⟩ := hd
      by_cases hc : d0.class_name = c
      · subst hc
        cases cur with
        | none =>
            simp only [selectBest, if_pos rfl, if_true, eq_self_iff_true] at h
            rcases ih _ h with ⟨hcur, hbound⟩ | ⟨ha, hdc, hlt, l1, l2, hsplit, h1, h2⟩
            · obtain ⟨hq, hda⟩ := Prod.mk.injEq _ _ _ _ ▸ Option.some.inj hcur
              obtain ⟨hd2, haa⟩ := Prod.mk.injEq _ _ _ _ ▸ hda
              right
              refine ⟨by rw [← haa, hq], by rw [← hd2], ?_, [], tl, ?_, ?_, ?_⟩
              · intro p1 d1 a1 hx; exact Option.noConfusion hx
              · simp [hq, hd2]
              · intro q f hq2 hf; simp at hq2
              · intro q f hq2 hf
                exact hbound q f hq2 hf
            · right
              refine ⟨ha, hdc, ?_, (q0, d0) :: l1, l2, ?_, ?_, h2⟩
              · intro p1 d1 a1 hx; exact Option.noConfusion hx
              · rw [hsplit]; simp
              · intro q f hq2 hf
                rcases List.mem_cons.mp hq2 with hq3 | hq3
                · obtain ⟨hq4, hf4⟩ := Prod.mk.injEq _ _ _ _ ▸ hq3
                  rw [hq4]
                  exact hlt q0 d0 (calculate_bbox_area q0) rfl
                · exact h1 q f hq3 hf
        | some pda =>
            obtain ⟨p0, d1, a0⟩ := pda
            by_cases hgt : calculate_bbox_area q0 > a0
            · simp only [selectBest, if_pos rfl, if_true, eq_self_iff_true, if_pos hgt] at h
              rcases ih _ h with ⟨hcur, hbound⟩ | ⟨ha, hdc, hlt, l1, l2, hsplit, h1, h2⟩
              · obtain ⟨hq, hda⟩ := Prod.mk.injEq _ _ _ _ ▸ Option.some.inj hcur
                obtain ⟨hd2, haa⟩ := Prod.mk.injEq _ _ _ _ ▸ hda
                right
                refine ⟨by rw [← haa, hq], by rw [← hd2], ?_, [], tl, ?_, ?_, ?_⟩
                · intro p1 dd a1 hx
                  obtain ⟨hp1, hda1⟩ := Prod.mk.injEq _ _ _ _ ▸ Option.some.inj hx
                  obtain ⟨hd1, ha1⟩ := Prod.mk.injEq _ _ _ _ ▸ hda1
                  rw [← ha1, ← haa]
                  exact hgt
                · simp [hq, hd2]
                · intro q f hq2 hf; simp at hq2
                · intro q f hq2 hf
                  exact hbound q f hq2 hf
              · right
                have hq0lt : calculate_bbox_area q0 < a :=
                  hlt q0 d0 (calculate_bbox_area q0) rfl
                refine ⟨ha, hdc, ?_, (q0, d0) :: l1, l2, ?_, ?_, h2⟩
                · intro p1 dd a1 hx
                  obtain ⟨hp1, hda1⟩ := Prod.mk.injEq _ _ _ _ ▸ Option.some.inj hx
                  obtain ⟨hd1, ha1⟩ := Prod.mk.injEq _ _ _ _ ▸ hda1
                  rw [← ha1]
                  exact lt_trans hgt hq0lt
                · rw [hsplit]; simp
                · intro q f hq2 hf
                  rcases List.mem_cons.mp hq2 with hq3 | hq3
                  · obtain ⟨hq4, hf4⟩ := Prod.mk.injEq _ _ _ _ ▸ hq3
                    rw [hq4]
                    exact hq0lt
                  · exact h1 q f hq3 hf
            · simp only [selectBest, if_pos rfl, if_true, eq_self_iff_true, if_neg hgt] at h
              rcases ih _ h with ⟨hcur, hbound⟩ | ⟨ha, hdc, hlt, l1, l2, hsplit, h1, h2⟩
              · left
                refine ⟨hcur, ?_⟩
                intro q f hq2 hf
                rcases List.mem_cons.mp hq2 with hq3 | hq3
                · obtain ⟨hq4, hf4⟩ := Prod.mk.injEq _ _ _ _ ▸ hq3
                  obtain ⟨hp0, hda0⟩ := Prod.mk.injEq _ _ _ _ ▸ Option.some.inj hcur
                  obtain ⟨hd1, ha0⟩ := Prod.mk.injEq _ _ _ _ ▸ hda0
                  rw [hq4, ← ha0]
                  exact not_lt.mp hgt
                · exact hbound q f hq3 hf
              · right
                have ha0lt : a0 < a := hlt p0 d1 a0 rfl
                refine ⟨ha, hdc, ?_, (q0, d0) :: l1, l2, ?_, ?_, h2⟩
                · intro p1 dd a1 hx
                  obtain ⟨hp1, hda1⟩ := Prod.mk.injEq _ _ _ _ ▸ Option.some.inj hx
                  obtain ⟨hd1, ha1⟩ := Prod.mk.injEq _ _ _ _ ▸ hda1
                  rw [← ha1]
                  exact ha0lt
                · rw [hsplit]; simp
                · intro q f hq2 hf
                  rcases List.mem_cons.mp hq2 with hq3 | hq3
                  · obtain ⟨hq4, hf4⟩ := Prod.mk.injEq _ _ _ _ ▸ hq3
                    rw [hq4]
                    exact lt_of_le_of_lt (not_lt.mp hgt) ha0lt
                  · exact h1 q f hq3 hf
      · simp only [selectBest, if_neg hc] at h
        rcases ih _ h with ⟨hcur, hbound⟩ | ⟨ha, hdc, hlt, l1, l2, hsplit, h1, h2⟩
        · left
          refine ⟨hcur, ?_⟩
          intro q f hq2 hf
          rcases List.mem_cons.mp hq2 with hq3 | hq3
          · obtain ⟨hq4, hf4⟩ := Prod.mk.injEq _ _ _ _ ▸ hq3
            exact absurd (hf4 ▸ hf) hc
          · exact hbound q f hq3 hf
        · right
          refine ⟨ha, hdc, hlt, (q0, d0) :: l1, l2, ?_, ?_, h2⟩
          · rw [hsplit]; simp
          · intro q f hq2 hf
            rcases List.mem_cons.mp hq2 with hq3 | hq3
            · obtain ⟨hq4, hf4⟩ := Prod.mk.injEq _ _ _ _ ▸ hq3
              exact absurd (hf4 ▸ hf) hc
            · exact h1 q f hq3 hf

theorem selectBest_max (c : String) (dets : List (Coords × Det)) (p : Coords) (d : Det)
    (a : Int) (h : selectBest c none dets = some (p, d, a)) :
    a = calculate_bbox_area p ∧ d.class_name = c ∧ (p, d) ∈ dets
    ∧ ∀ (q : Coords) (f : Det), (q, f) ∈ dets → f.class_name = c → calculate_bbox_area q ≤ a := by
  rcases selectBest_soundP c dets none p d a h with ⟨hcur, _⟩ | ⟨ha, hdc, _, l1, l2, hsplit, h1, h2⟩
  · exact Option.noConfusion hcur
  · refine ⟨ha, hdc, by rw [hsplit]; simp, ?_⟩
    intro q f hqf hfc
    rw [hsplit] at hqf
    rcases List.mem_append.mp hqf with h3 | h3
    · exact le_of_lt (h1 q f h3 hfc)
    · rcases List.mem_cons.mp h3 with h4 | h4
      · obtain ⟨hq4, hf4⟩ := Prod.mk.injEq _ _ _ _ ▸ h4
        rw [hq4, ha]
      · exact h2 q f h4 hfc

theorem keys_classLargestAux_nodupP (dets : List (Coords × Det))
    (acc : List (String × Coords × Det × Int)) (h : (acc.map Prod.fst).Nodup) :
    ((classLargestAux acc dets).map Prod.fst).Nodup := by
  induction dets generalizing acc with
  | nil => exact h
  | cons hd tl ih =>
      obtain ⟨p, d⟩ := hd
      cases hfind : dictFind d.class_name acc with
      | none =>
          simp only [classLargestAux, hfind]
          exact ih _ (keys_dictInsert_nodup _ _ _ h)
      | some pda =>
          obtain ⟨p0, d0, a0⟩ := pda
          by_cases hgt : calculate_bbox_area p > a0
          · simp only [classLargestAux, hfind, if_pos hgt]
            exact ih _ (keys_dictInsert_nodup _ _ _ h)
          · simp only [classLargestAux, hfind, if_neg hgt]
            exact ih _ h

theorem mem_classLargestAuxP (dets : List (Coords × Det))
    (acc : List (String × Coords × Det × Int)) (x : String × Coords × Det × Int)
    (h : x ∈ classLargestAux acc dets) :
    x ∈ acc ∨ (x.2.2.2 = calculate_bbox_area x.2.1 ∧ (x.2.1, x.2.2.1) ∈ dets
        ∧ x.2.2.1.class_name = x.1) := by
  induction dets generalizing acc with
  | nil => exact Or.inl h
  | cons hd tl ih =>
      obtain ⟨p, d⟩ := hd
      have step : ∀ acc2 : List (String × Coords × Det × Int),
          x ∈ classLargestAux acc2 tl →
          (x ∈ acc2 ∨ (x.2.2.2 = calculate_bbox_area x.2.1 ∧ (x.2.1, x.2.2.1) ∈ (p, d) :: tl
              ∧ x.2.2.1.class_name = x.1)) := by
        intro acc2 hx
        rcases ih acc2 hx with h2 | ⟨h2, h3, h4⟩
        · exact Or.inl h2
        · exact Or.inr ⟨h2, List.mem_cons_of_mem _ h3, h4⟩
      cases hfind : dictFind d.class_name acc with
      | none =>
          simp only [classLargestAux, hfind] at h
          rcases step _ h with h2 | h2
          · rcases mem_dictInsert x d.class_name _ acc h2 with h3 | h3
            · right
              rw [h3]
              exact ⟨rfl, List.mem_cons_self _ _, rfl⟩
            · exact Or.inl h3
          · exact Or.inr h2
      | some pda =>
          obtain ⟨p0, d0, a0⟩ := pda
          by_cases hgt : calculate_bbox_area p > a0
          · simp only [classLargestAux, hfind, if_pos hgt] at h
            rcases step _ h with h2 | h2
            · rcases mem_dictInsert x d.class_name _ acc h2 with h3 | h3
              · right
                rw [h3]
                exact ⟨rfl, List.mem_cons_self _ _, rfl⟩
              · exact Or.inl h3
            · exact Or.inr h2
          · simp only [classLargestAux, hfind, if_neg hgt] at h
            exact step _ h

theorem winners_coords_nodupP (dets : List (Coords × Det))
    (h : (dets.map Prod.fst).Nodup) :
    ((class_largest dets).map fun e => e.2.1).Nodup := by
  have hkeys : ((class_largest dets).map Prod.fst).Nodup :=
    keys_classLargestAux_nodupP dets [] (by simp)
  have hpw : (class_largest dets).Pairwise (fun e1 e2 => e1.1 ≠ e2.1) :=
    (List.pairwise_map).mp hkeys
  have hpw2 : (class_largest dets).Pairwise (fun e1 e2 => e1.2.1 ≠ e2.2.1) := by
    refine List.Pairwise.imp_of_mem ?_ hpw
    intro e1 e2 h1 h2 hne heq
    rcases mem_classLargestAuxP dets [] e1 h1 with h3 | ⟨_, h3, h5⟩
    · simp at h3
    rcases mem_classLargestAuxP dets [] e2 h2 with h4 | ⟨_, h4, h6⟩
    · simp at h4
    rw [heq] at h3
    have hdd : e1.2.2.1 = e2.2.2.1 := eq_of_mem_keys_nodup dets h e2.2.1 e1.2.2.1 e2.2.2.1 h3 h4
    exact hne (by rw [← h5, ← h6, hdd])
  exact (List.pairwise_map).mpr hpw2

theorem select_largest_eq_of_keys_nodupP (dets : List (Coords × Det))
    (h : (dets.map Prod.fst).Nodup) :
    select_largest_instances dets = (class_largest dets).map fun e => (e.2.1, e.2.2.1) := by
  unfold select_largest_instances
  refine buildDict_of_nodup _ ?_
  rw [List.map_map]
  exact winners_coords_nodupP dets h

theorem dictFind_class_largest_eq (c : String) (dets : List (Coords × Det)) :
    dictFind c (class_largest dets) = selectBest c none dets := by
  have := dictFind_classLargestAuxP c dets []
  simpa [dictFind] using this

/-- C1: the consolidated output entry of a class has bounding-box area at
least that of every same-labeled input detection, regardless of the
confidences involved (area alone decides). -/
theorem largest_area_wins (dets : List (Coords × Det)) (p : Coords) (d : Det)
    (hmem : (p, d) ∈ dets) (p2 : Coords) (d2 : Det)
    (hout : (p2, d2) ∈ select_largest_instances dets)
    (hclass : d2.class_name = d.class_name) :
    calculate_bbox_area p ≤ calculate_bbox_area p2 := by
  have h1 : (p2, d2) ∈ (class_largest dets).map fun e => (e.2.1, e.2.2.1) :=
    mem_buildDict _ _ hout
  rcases List.mem_map.mp h1 with ⟨e, he, heq⟩
  obtain ⟨c0, w1, w2, w3⟩ := e
  obtain ⟨hp2, hd2⟩ := Prod.mk.injEq _ _ _ _ ▸ heq
  have hkeys : ((class_largest dets).map Prod.fst).Nodup :=
    keys_classLargestAux_nodupP dets [] (by simp)
  have hfind : dictFind c0 (class_largest dets) = some (w1, w2, w3) :=
    dictFind_of_mem_of_nodup c0 (w1, w2, w3) _ hkeys he
  rw [dictFind_class_largest_eq] at hfind
  have hmax := selectBest_max c0 dets w1 w2 w3 hfind
  have hclass2 : d.class_name = c0 := by
    rw [← hclass, ← hd2]
    exact hmax.2.1
  have hbound := hmax.2.2.2 p d hmem hclass2
  rw [hmax.1] at hbound
  rw [← hp2]
  exact hbound

/-- C1 witness: the larger box (area 10000) with confidence 0 beats the
smaller box (area 1600) with confidence 1 for the same class. -/
theorem largest_area_wins_witness :
    (((10, 10, 50, 50), (⟨"laptop", 1⟩ : Det))
        ∈ ([((0, 0, 100, 100), ⟨"laptop", 0⟩), ((10, 10, 50, 50), ⟨"laptop", 1⟩)] : List (Coords × Det)))
    ∧ (((0, 0, 100, 100), (⟨"laptop", 0⟩ : Det))
        ∈ select_largest_instances [((0, 0, 100, 100), ⟨"laptop", 0⟩), ((10, 10, 50, 50), ⟨"laptop", 1⟩)])
    ∧ calculate_bbox_area ((10 : Int), 10, 50, 50) ≤ calculate_bbox_area ((0 : Int), 0, 100, 100) :=
  ⟨by decide, by decide,
    largest_area_wins [((0, 0, 100, 100), ⟨"laptop", 0⟩), ((10, 10, 50, 50), ⟨"laptop", 1⟩)]
      (10, 10, 50, 50) ⟨"laptop", 1⟩ (by decide)
      (0, 0, 100, 100) ⟨"laptop", 0⟩ (by decide) (by decide)⟩

/-- C5: for a one-image detection dict (distinct box keys, as in a Python
dict), consolidation returns at most one entry per class label, each
returned `(box, detection)` entry is verbatim one of the input detections
(so its confidence is the confidence of the selected detection) of
maximal area for its class, and every input class label has an entry. -/
theorem consolidation_one_entry_per_class (dets : List (Coords × Det))
    (h : (dets.map Prod.fst).Nodup) :
    (select_largest_instances dets).Pairwise (fun e1 e2 => e1.2.class_name ≠ e2.2.class_name)
    ∧ (∀ e ∈ select_largest_instances dets, e ∈ dets
        ∧ ∀ (q : Coords) (f : Det), (q, f) ∈ dets → f.class_name = e.2.class_name →
            calculate_bbox_area q ≤ calculate_bbox_area e.1)
    ∧ (∀ pd ∈ dets, ∃ e ∈ select_largest_instances dets, e.2.class_name = pd.2.class_name) := by
  have hkeys : ((class_largest dets).map Prod.fst).Nodup :=
    keys_classLargestAux_nodupP dets [] (by simp)
  have hsel := select_largest_eq_of_keys_nodupP dets h
  refine ⟨?_, ?_, ?_⟩
  · rw [hsel]
    refine (List.pairwise_map).mpr ?_
    refine List.Pairwise.imp_of_mem ?_ ((List.pairwise_map).mp hkeys)
    intro e1 e2 h1 h2 hne heq
    rcases mem_classLargestAuxP dets [] e1 h1 with h3 | ⟨_, _, h5⟩
    · simp at h3
    rcases mem_classLargestAuxP dets [] e2 h2 with h4 | ⟨_, _, h6⟩
    · simp at h4
    exact hne (by rw [← h5, ← h6, heq])
  · intro e hout
    obtain ⟨p2, d2⟩ := e
    have h1 : (p2, d2) ∈ (class_largest dets).map fun e => (e.2.1, e.2.2.1) :=
      mem_buildDict _ _ hout
    rcases List.mem_map.mp h1 with ⟨e2, he2, heq⟩
    obtain ⟨c0, w1, w2, w3⟩ := e2
    obtain ⟨hp2, hd2⟩ := Prod.mk.injEq _ _ _ _ ▸ heq
    have hfind : dictFind c0 (class_largest dets) = some (w1, w2, w3) :=
      dictFind_of_mem_of_nodup c0 (w1, w2, w3) _ hkeys he2
    rw [dictFind_class_largest_eq] at hfind
    have hmax := selectBest_max c0 dets w1 w2 w3 hfind
    constructor
    · rw [← hp2, ← hd2]
      exact hmax.2.2.1
    · intro q f hqf hfc
      have hfc2 : f.class_name = c0 := by
        rw [hfc]
        show d2.class_name = c0
        rw [← hd2]
        exact hmax.2.1
      have hb := hmax.2.2.2 q f hqf hfc2
      rw [hmax.1] at hb
      show calculate_bbox_area q ≤ calculate_bbox_area p2
      rw [← hp2]
      exact hb
  · intro pd hpd
    obtain ⟨q, f⟩ := pd
    have hne : selectBest f.class_name none dets ≠ none := by
      rw [Ne, selectBest_eq_none_iffP]
      rintro ⟨-, hall⟩
      exact hall (q, f) hpd rfl
    rcases Option.ne_none_iff_exists.mp hne with ⟨w, hw⟩
    obtain ⟨w1, w2, w3⟩ := w
    have hfind : dictFind f.class_name (class_largest dets) = some (w1, w2, w3) := by
      rw [dictFind_class_largest_eq]
      exact hw.symm
    have hmemw : (f.class_name, (w1, w2, w3)) ∈ class_largest dets :=
      dictFind_some_mem _ _ _ hfind
    refine ⟨(w1, w2), ?_, ?_⟩
    · rw [hsel]
      exact List.mem_map.mpr ⟨(f.class_name, (w1, w2, w3)), hmemw, rfl⟩
    · rcases mem_classLargestAuxP dets [] _ hmemw with h3 | ⟨_, _, h5⟩
      · simp at h3
      · exact h5

/-- C5 witness: a two-detection, one-class input with distinct box keys;
the conclusions hold at this input. -/
theorem consolidation_one_entry_per_class_witness :
    (select_largest_instances
        [((0, 0, 100, 100), ⟨"laptop", 0⟩), ((10, 10, 50, 50), ⟨"laptop", 1⟩)]).Pairwise
          (fun e1 e2 => e1.2.class_name ≠ e2.2.class_name)
    ∧ (∀ e ∈ select_largest_instances
          [((0, 0, 100, 100), ⟨"laptop", 0⟩), ((10, 10, 50, 50), ⟨"laptop", 1⟩)],
        e ∈ ([((0, 0, 100, 100), ⟨"laptop", 0⟩), ((10, 10, 50, 50), ⟨"laptop", 1⟩)] : List (Coords × Det))
        ∧ ∀ (q : Coords) (f : Det),
            (q, f) ∈ ([((0, 0, 100, 100), ⟨"laptop", 0⟩), ((10, 10, 50, 50), ⟨"laptop", 1⟩)] : List (Coords × Det)) →
              f.class_name = e.2.class_name → calculate_bbox_area q ≤ calculate_bbox_area e.1)
    ∧ (∀ pd ∈ ([((0, 0, 100, 100), ⟨"laptop", 0⟩), ((10, 10, 50, 50), ⟨"laptop", 1⟩)] : List (Coords × Det)),
        ∃ e ∈ select_largest_instances
            [((0, 0, 100, 100), ⟨"laptop", 0⟩), ((10, 10, 50, 50), ⟨"laptop", 1⟩)],
          e.2.class_name = pd.2.class_name) :=
  consolidation_one_entry_per_class
    [((0, 0, 100, 100), ⟨"laptop", 0⟩), ((10, 10, 50, 50), ⟨"laptop", 1⟩)] (by decide)

/-- C10: in the single-image pipeline, zero detections yield exactly one
synthetic whole-image detection labeled `"item"` with confidence `1.0`
and box `(0, 0, w, h)`; consolidation keeps it unchanged and the
resellability filter passes it through, so it is processed like a real
detection. -/
theorem single_image_fallback (w h : Int) :
    process_single_image_detections [] w h = [((0, 0, w, h), ⟨"item", 1⟩)]
    ∧ select_largest_instances (process_single_image_detections [] w h)
        = [((0, 0, w, h), ⟨"item", 1⟩)]
    ∧ filter_resellable_objects ["item"] = ["item"] :=
  ⟨rfl, rfl, rfl⟩

end Pipeline

namespace OD

theorem processDetections_fst (iid : String) (res : List String)
    (dets : List (Coords × String)) (seen : List String) :
    (processDetections iid res dets seen).1
      = seen ++ (processDetections iid res dets seen).2.map (fun k => pyLower k.class_label) := by
  induction dets generalizing seen with
  | nil => simp [processDetections]
  | cons hd tl ih =>
      obtain ⟨coords, cname⟩ := hd
      by_cases hcond : pyLower cname ∈ res ∧ pyLower cname ∉ seen
      · simp only [processDetections, if_pos hcond, List.map_cons]
        rw [ih]
        simp
      · simp only [processDetections, if_neg hcond]
        exact ih seen

theorem processDetections_seen_mono (iid : String) (res : List String)
    (dets : List (Coords × String)) (seen : List String) (x : String) (h : x ∈ seen) :
    x ∈ (processDetections iid res dets seen).1 := by
  rw [processDetections_fst]
  exact List.mem_append_left _ h

theorem processDetections_mem (iid : String) (res : List String)
    (dets : List (Coords × String)) (seen : List String) (k : KeptItem)
    (h : k ∈ (processDetections iid res dets seen).2) :
    k.image_id = iid ∧ (k.box, k.class_label) ∈ dets
      ∧ pyLower k.class_label ∈ res ∧ pyLower k.class_label ∉ seen := by
  induction dets generalizing seen with
  | nil => simp [processDetections] at h
  | cons hd tl ih =>
      obtain ⟨coords, cname⟩ := hd
      by_cases hcond : pyLower cname ∈ res ∧ pyLower cname ∉ seen
      · simp only [processDetections, if_pos hcond] at h
        rcases List.mem_cons.mp h with h2 | h2
        · subst h2
          exact ⟨rfl, List.mem_cons_self _ _, hcond.1, hcond.2⟩
        · obtain ⟨ha, hb, hc, hd2⟩ := ih _ h2
          refine ⟨ha, List.mem_cons_of_mem _ hb, hc, ?_⟩
          intro hx
          exact hd2 (List.mem_append_left _ hx)
      · simp only [processDetections, if_neg hcond] at h
        obtain ⟨ha, hb, hc, hd2⟩ := ih _ h
        exact ⟨ha, List.mem_cons_of_mem _ hb, hc, hd2⟩

theorem processDetections_lowers_nodup (iid : String) (res : List String)
    (dets : List (Coords × String)) (seen : List String) :
    ((processDetections iid res dets seen).2.map (fun k => pyLower k.class_label)).Nodup := by
  induction dets generalizing seen with
  | nil => simp [processDetections]
  | cons hd tl ih =>
      obtain ⟨coords, cname⟩ := hd
      by_cases hcond : pyLower cname ∈ res ∧ pyLower cname ∉ seen
      · simp only [processDetections, if_pos hcond, List.map_cons]
        rw [List.nodup_cons]
        refine ⟨?_, ih _⟩
        intro hx
        rcases List.mem_map.mp hx with ⟨k2, hk2, hk2e⟩
        have h3 := (processDetections_mem iid res tl _ k2 hk2).2.2.2
        exact h3 (hk2e.symm ▸ List.mem_append_right _ (List.mem_singleton_self _))
      · simp only [processDetections, if_neg hcond]
        exact ih seen

theorem processDetections_seen_coverage (iid : String) (res : List String)
    (dets : List (Coords × String)) (seen : List String) (coords : Coords) (cname : String)
    (hmem : (coords, cname) ∈ dets) (hres : pyLower cname ∈ res) :
    pyLower cname ∈ (processDetections iid res dets seen).1 := by
  induction dets generalizing seen with
  | nil => simp at hmem
  | cons hd tl ih =>
      obtain ⟨c0, n0⟩ := hd
      by_cases hcond : pyLower n0 ∈ res ∧ pyLower n0 ∉ seen
      · simp only [processDetections, if_pos hcond]
        rcases List.mem_cons.mp hmem with h2 | h2
        · obtain ⟨hc0, hn0⟩ := Prod.mk.injEq _ _ _ _ ▸ h2
          refine processDetections_seen_mono iid res tl _ _ ?_
          rw [hn0]
          exact List.mem_append_right _ (List.mem_singleton_self _)
        · exact ih _ h2
      · simp only [processDetections, if_neg hcond]
        rcases List.mem_cons.mp hmem with h2 | h2
        · obtain ⟨hc0, hn0⟩ := Prod.mk.injEq _ _ _ _ ▸ h2
          rw [hn0] at hres ⊢
          rcases not_and_or.mp hcond with h3 | h3
          · exact absurd hres h3
          · exact processDetections_seen_mono iid res tl seen _ (not_not.mp h3)
        · exact ih seen h2

theorem analyzeBatch_fst (imgs : List ImageInput) (seen : List String) :
    (analyzeBatch imgs seen).1
      = seen ++ (analyzeBatch imgs seen).2.map (fun k => pyLower k.class_label) := by
  induction imgs generalizing seen with
  | nil => simp [analyzeBatch]
  | cons img rest ih =>
      simp only [analyzeBatch, List.map_append]
      rw [ih]
      rw [processDetections_fst]
      simp [List.append_assoc]

theorem analyzeBatch_seen_mono (imgs : List ImageInput) (seen : List String) (x : String)
    (h : x ∈ seen) : x ∈ (analyzeBatch imgs seen).1 := by
  rw [analyzeBatch_fst]
  exact List.mem_append_left _ h

theorem analyzeBatch_mem (imgs : List ImageInput) (seen : List String) (k : KeptItem)
    (h : k ∈ (analyzeBatch imgs seen).2) :
    (∃ img ∈ imgs, k.image_id = img.image_id
        ∧ (k.box, k.class_label) ∈ select_largest_instances img.detections
        ∧ pyLower k.class_label ∈ img.resellable_names.map pyLower)
    ∧ pyLower k.class_label ∉ seen := by
  induction imgs generalizing seen with
  | nil => simp [analyzeBatch] at h
  | cons img rest ih =>
      simp only [analyzeBatch] at h
      rcases List.mem_append.mp h with h2 | h2
      · obtain ⟨ha, hb, hc, hd2⟩ := processDetections_mem _ _ _ _ k h2
        exact ⟨⟨img, List.mem_cons_self _ _, ha, hb, hc⟩, hd2⟩
      · obtain ⟨⟨img2, himg2, hprops⟩, hseen⟩ := ih _ h2
        refine ⟨⟨img2, List.mem_cons_of_mem _ himg2, hprops⟩, ?_⟩
        intro hx
        exact hseen (processDetections_seen_mono _ _ _ _ _ hx)

theorem analyzeBatch_lowers_nodup (imgs : List ImageInput) (seen : List String) :
    ((analyzeBatch imgs seen).2.map (fun k => pyLower k.class_label)).Nodup := by
  induction imgs generalizing seen with
  | nil => simp [analyzeBatch]
  | cons img rest ih =>
      simp only [analyzeBatch, List.map_append]
      rw [List.nodup_append]
      refine ⟨processDetections_lowers_nodup _ _ _ _, ih _, ?_⟩
      intro x hx1 hx2
      rcases List.mem_map.mp hx2 with ⟨k2, hk2, hk2e⟩
      have hnot := (analyzeBatch_mem rest _ k2 hk2).2
      rw [hk2e] at hnot
      refine hnot ?_
      rw [processDetections_fst]
      exact List.mem_append_right _ hx1

theorem analyzeBatch_append (xs ys : List ImageInput) (seen : List String) :
    analyzeBatch (xs ++ ys) seen
      = ((analyzeBatch ys (analyzeBatch xs seen).1).1,
          (analyzeBatch xs seen).2 ++ (analyzeBatch ys (analyzeBatch xs seen).1).2) := by
  induction xs generalizing seen with
  | nil => simp [analyzeBatch]
  | cons img rest ih =>
      simp only [List.cons_append, analyzeBatch, List.append_eq]
      rw [ih]
      simp [List.append_assoc]

theorem analyzeBatch_seen_coverage (imgs : List ImageInput) (seen : List String)
    (img : ImageInput) (l : String) (himg : img ∈ imgs) (hres : hasResellableLabel img l) :
    l ∈ (analyzeBatch imgs seen).1 := by
  induction imgs generalizing seen with
  | nil => simp at himg
  | cons img2 rest ih =>
      simp only [analyzeBatch]
      rcases List.mem_cons.mp himg with h2 | h2
      · subst h2
        obtain ⟨⟨e, he, hel⟩, hlres⟩ := hres
        obtain ⟨coords, cname⟩ := e
        refine analyzeBatch_seen_mono rest _ l ?_
        have hx := processDetections_seen_coverage img.image_id
          (img.resellable_names.map pyLower) (select_largest_instances img.detections)
          seen coords cname he (by rw [hel]; exact hlres)
        rw [hel] at hx
        exact hx
      · exact ih _ h2

theorem kept_injective_on_lower (imgs : List ImageInput) (k1 k2 : KeptItem)
    (h1 : k1 ∈ analyze_for_resellable_objects imgs)
    (h2 : k2 ∈ analyze_for_resellable_objects imgs)
    (heq : pyLower k1.class_label = pyLower k2.class_label) : k1 = k2 :=
  List.inj_on_of_nodup_map (analyzeBatch_lowers_nodup imgs []) h1 h2 heq

/-- C3: no two kept items of a batch share a class label: the output of
the deduplication core is pairwise distinct in `class_label`. -/
theorem global_uniqueness_by_class (imgs : List ImageInput) :
    (analyze_for_resellable_objects imgs).Pairwise
      (fun k1 k2 => k1.class_label ≠ k2.class_label) := by
  have h := (List.pairwise_map).mp (analyzeBatch_lowers_nodup imgs [])
  exact h.imp (fun hne heq => hne (congrArg pyLower heq))

/-- C9: deduplication is case-insensitive: kept items are pairwise
distinct even after lowercasing their class labels (two labels differing
only in case cannot both be kept), while each kept item's label is the
original-case class name of a consolidated detection of its image. -/
theorem dedup_case_insensitive (imgs : List ImageInput) :
    (analyze_for_resellable_objects imgs).Pairwise
        (fun k1 k2 => pyLower k1.class_label ≠ pyLower k2.class_label)
    ∧ ∀ k ∈ analyze_for_resellable_objects imgs,
        ∃ img ∈ imgs, k.image_id = img.image_id
          ∧ (k.box, k.class_label) ∈ select_largest_instances img.detections := by
  constructor
  · exact (List.pairwise_map).mp (analyzeBatch_lowers_nodup imgs [])
  · intro k hk
    obtain ⟨⟨img, himg, ha, hb, -⟩, -⟩ := analyzeBatch_mem imgs [] k hk
    exact ⟨img, himg, ha, hb⟩

/-- C9 witness: `"Book"` in the first image blocks `"book"` in the second;
the one kept item retains the original-case label `"Book"`. -/
theorem dedup_case_insensitive_witness :
    (analyze_for_resellable_objects
        [⟨"img1", [((0, 0, 2, 2), "Book")], ["book"]⟩,
          ⟨"img2", [((5, 5, 9, 9), "book")], ["book"]⟩]).Pairwise
        (fun k1 k2 => pyLower k1.class_label ≠ pyLower k2.class_label)
    ∧ (∃ img ∈ ([⟨"img1", [((0, 0, 2, 2), "Book")], ["book"]⟩,
          ⟨"img2", [((5, 5, 9, 9), "book")], ["book"]⟩] : List ImageInput),
        (⟨"img1", "Book", (0, 0, 2, 2)⟩ : KeptItem).image_id = img.image_id
          ∧ ((⟨"img1", "Book", (0, 0, 2, 2)⟩ : KeptItem).box,
              (⟨"img1", "Book", (0, 0, 2, 2)⟩ : KeptItem).class_label)
            ∈ select_largest_instances img.detections) :=
  ⟨(dedup_case_insensitive
      [⟨"img1", [((0, 0, 2, 2), "Book")], ["book"]⟩,
        ⟨"img2", [((5, 5, 9, 9), "book")], ["book"]⟩]).1,
    (dedup_case_insensitive
      [⟨"img1", [((0, 0, 2, 2), "Book")], ["book"]⟩,
        ⟨"img2", [((5, 5, 9, 9), "book")], ["book"]⟩]).2
      ⟨"img1", "Book", (0, 0, 2, 2)⟩ (by decide)⟩

theorem analyzeBatch_first_image_wins (img : ImageInput) (rest : List ImageInput)
    (seen : List String) (l : String) (hres : hasResellableLabel img l) (hseen : l ∉ seen) :
    ∃ k ∈ (analyzeBatch (img :: rest) seen).2,
      pyLower k.class_label = l ∧ k.image_id = img.image_id
        ∧ (k.box, k.class_label) ∈ select_largest_instances img.detections := by
  obtain ⟨⟨e, he, hel⟩, hlres⟩ := hres
  obtain ⟨coords, cname⟩ := e
  have hcov : pyLower cname ∈ (processDetections img.image_id
      (img.resellable_names.map pyLower) (select_largest_instances img.detections) seen).1 :=
    processDetections_seen_coverage img.image_id (img.resellable_names.map pyLower)
      (select_largest_instances img.detections) seen coords cname he (by rw [hel]; exact hlres)
  rw [processDetections_fst] at hcov
  rcases List.mem_append.mp hcov with h2 | h2
  · exact absurd (hel ▸ h2) hseen
  · rcases List.mem_map.mp h2 with ⟨k, hk, hke⟩
    have hprops := processDetections_mem img.image_id (img.resellable_names.map pyLower)
      (select_largest_instances img.detections) seen k hk
    refine ⟨k, ?_, ?_, hprops.1, hprops.2.1⟩
    · simp only [analyzeBatch]
      exact List.mem_append_left _ hk
    · rw [hke, hel]

/-- C2: if the earliest image whose consolidated-and-resellable detections
contain (a case variant of) class label `c` precedes another image that
also contains it, then exactly one kept item with that lowercased label is
emitted; it carries the earlier image's identifier and one of the earlier
image's consolidated boxes, never the later image's identifier. -/
theorem first_seen_wins (pre mid post : List ImageInput) (imgI imgJ : ImageInput) (c : String)
    (hI : hasResellableLabel imgI (pyLower c))
    (hJ : hasResellableLabel imgJ (pyLower c))
    (hfirst : ∀ img ∈ pre, ¬ hasResellableLabel img (pyLower c))
    (hids : ((pre ++ imgI :: (mid ++ imgJ :: post)).map ImageInput.image_id).Nodup) :
    ∃ k, k ∈ analyze_for_resellable_objects (pre ++ imgI :: (mid ++ imgJ :: post))
      ∧ pyLower k.class_label = pyLower c
      ∧ k.image_id = imgI.image_id
      ∧ (k.box, k.class_label) ∈ select_largest_instances imgI.detections
      ∧ k.image_id ≠ imgJ.image_id
      ∧ ∀ k2 ∈ analyze_for_resellable_objects (pre ++ imgI :: (mid ++ imgJ :: post)),
          pyLower k2.class_label = pyLower c → k2 = k := by
  have happ := analyzeBatch_append pre (imgI :: (mid ++ imgJ :: post)) []
  have hout : analyze_for_resellable_objects (pre ++ imgI :: (mid ++ imgJ :: post))
      = (analyzeBatch pre []).2
        ++ (analyzeBatch (imgI :: (mid ++ imgJ :: post)) (analyzeBatch pre []).1).2 := by
    unfold analyze_for_resellable_objects
    rw [happ]
  have hnotpre : pyLower c ∉ (analyzeBatch pre []).1 := by
    rw [analyzeBatch_fst]
    simp only [List.nil_append]
    intro hx
    rcases List.mem_map.mp hx with ⟨k0, hk0, hk0e⟩
    obtain ⟨⟨img0, himg0, ha, hb, hc2⟩, -⟩ := analyzeBatch_mem pre [] k0 hk0
    refine hfirst img0 himg0 ?_
    refine ⟨⟨(k0.box, k0.class_label), hb, hk0e⟩, ?_⟩
    rw [← hk0e]
    exact hc2
  obtain ⟨k, hkmem, hkl, hkid, hkbox⟩ :=
    analyzeBatch_first_image_wins imgI (mid ++ imgJ :: post) (analyzeBatch pre []).1
      (pyLower c) hI hnotpre
  have hkout : k ∈ analyze_for_resellable_objects (pre ++ imgI :: (mid ++ imgJ :: post)) := by
    rw [hout]
    exact List.mem_append_right _ hkmem
  have hidne : imgI.image_id ≠ imgJ.image_id := by
    have hids2 : (pre.map ImageInput.image_id
        ++ imgI.image_id :: (mid.map ImageInput.image_id
          ++ imgJ.image_id :: post.map ImageInput.image_id)).Nodup := by
      simpa using hids
    have h3 := (List.nodup_append.mp hids2).2.1
    rw [List.nodup_cons] at h3
    intro he
    exact h3.1 (he ▸ List.mem_append_right _ (List.mem_cons_self _ _))
  refine ⟨k, hkout, hkl, hkid, hkbox, by rw [hkid]; exact hidne, ?_⟩
  intro k2 hk2 hk2l
  exact kept_injective_on_lower _ k2 k hk2 hkout (by rw [hk2l, hkl])

/-- C2 witness: `"Book"` consolidated in the first image and `"book"` in
the second; the single kept item is the first image's. -/
theorem first_seen_wins_witness :
    ∃ k, k ∈ analyze_for_resellable_objects
        ([] ++ (⟨"img1", [((0, 0, 2, 2), "Book")], ["book"]⟩ : ImageInput)
          :: [] ++ (⟨"img2", [((5, 5, 9, 9), "book")], ["book"]⟩ : ImageInput) :: [])
      ∧ pyLower k.class_label = pyLower "book"
      ∧ k.image_id = (⟨"img1", [((0, 0, 2, 2), "Book")], ["book"]⟩ : ImageInput).image_id
      ∧ (k.box, k.class_label) ∈ select_largest_instances
          (⟨"img1", [((0, 0, 2, 2), "Book")], ["book"]⟩ : ImageInput).detections
      ∧ k.image_id ≠ (⟨"img2", [((5, 5, 9, 9), "book")], ["book"]⟩ : ImageInput).image_id
      ∧ ∀ k2 ∈ analyze_for_resellable_objects
          ([] ++ (⟨"img1", [((0, 0, 2, 2), "Book")], ["book"]⟩ : ImageInput)
            :: [] ++ (⟨"img2", [((5, 5, 9, 9), "book")], ["book"]⟩ : ImageInput) :: []),
          pyLower k2.class_label = pyLower "book" → k2 = k :=
  first_seen_wins [] [] [] ⟨"img1", [((0, 0, 2, 2), "Book")], ["book"]⟩
    ⟨"img2", [((5, 5, 9, 9), "book")], ["book"]⟩ "book"
    (by decide) (by decide) (by intro img himg; simp at himg) (by decide)

/-- C7: kept items are emitted in image-processing order: when the image
identifiers of a batch are distinct, any kept item of an earlier image
occupies an earlier position in the output than any kept item of a later
image. -/
theorem order_preservation (pre : List ImageInput) (imgI : ImageInput) (mid : List ImageInput)
    (imgJ : ImageInput) (post : List ImageInput) (k kJ : KeptItem)
    (hids : ((pre ++ imgI :: (mid ++ imgJ :: post)).map ImageInput.image_id).Nodup)
    (hk : k ∈ analyze_for_resellable_objects (pre ++ imgI :: (mid ++ imgJ :: post)))
    (hkI : k.image_id = imgI.image_id)
    (hkJ : kJ ∈ analyze_for_resellable_objects (pre ++ imgI :: (mid ++ imgJ :: post)))
    (hkJid : kJ.image_id = imgJ.image_id) :
    ∃ p q : Nat, p < q
      ∧ (analyze_for_resellable_objects (pre ++ imgI :: (mid ++ imgJ :: post))).get? p = some k
      ∧ (analyze_for_resellable_objects (pre ++ imgI :: (mid ++ imgJ :: post))).get? q = some kJ := by
  have hform : pre ++ imgI :: (mid ++ imgJ :: post) = (pre ++ [imgI]) ++ (mid ++ imgJ :: post) := by
    rw [List.append_cons]
  have happ := analyzeBatch_append (pre ++ [imgI]) (mid ++ imgJ :: post) []
  have hout : analyze_for_resellable_objects (pre ++ imgI :: (mid ++ imgJ :: post))
      = (analyzeBatch (pre ++ [imgI]) []).2
        ++ (analyzeBatch (mid ++ imgJ :: post) (analyzeBatch (pre ++ [imgI]) []).1).2 := by
    unfold analyze_for_resellable_objects
    rw [hform, happ]
  have hdisj : (List.map ImageInput.image_id (pre ++ [imgI])).Disjoint
      (List.map ImageInput.image_id (mid ++ imgJ :: post)) := by
    have hids2 : (List.map ImageInput.image_id (pre ++ [imgI])
        ++ List.map ImageInput.image_id (mid ++ imgJ :: post)).Nodup := by
      rw [← List.map_append, ← hform]
      exact hids
    exact (List.nodup_append.mp hids2).2.2
  have hkA : k ∈ (analyzeBatch (pre ++ [imgI]) []).2 := by
    rw [hout] at hk
    rcases List.mem_append.mp hk with h2 | h2
    · exact h2
    · exfalso
      obtain ⟨⟨img2, himg2, hid2, -, -⟩, -⟩ := analyzeBatch_mem _ _ k h2
      have hmem1 : imgI.image_id ∈ List.map ImageInput.image_id (pre ++ [imgI]) :=
        List.mem_map.mpr ⟨imgI, List.mem_append_right _ (List.mem_singleton_self _), rfl⟩
      have hmem2 : imgI.image_id ∈ List.map ImageInput.image_id (mid ++ imgJ :: post) := by
        rw [← hkI, hid2]
        exact List.mem_map_of_mem _ himg2
      exact hdisj hmem1 hmem2
  have hkJB : kJ ∈ (analyzeBatch (mid ++ imgJ :: post) (analyzeBatch (pre ++ [imgI]) []).1).2 := by
    rw [hout] at hkJ
    rcases List.mem_append.mp hkJ with h2 | h2
    · exfalso
      obtain ⟨⟨img2, himg2, hid2, -, -⟩, -⟩ := analyzeBatch_mem _ _ kJ h2
      have hmem1 : imgJ.image_id ∈ List.map ImageInput.image_id (pre ++ [imgI]) := by
        rw [← hkJid, hid2]
        exact List.mem_map_of_mem _ himg2
      have hmem2 : imgJ.image_id ∈ List.map ImageInput.image_id (mid ++ imgJ :: post) :=
        List.mem_map.mpr ⟨imgJ, List.mem_append_right _ (List.mem_cons_self _ _), rfl⟩
      exact hdisj hmem1 hmem2
    · exact h2
  obtain ⟨p, hp⟩ := List.get?_of_mem hkA
  obtain ⟨q2, hq2⟩ := List.get?_of_mem hkJB
  have hplen : p < (analyzeBatch (pre ++ [imgI]) []).2.length := (List.get?_eq_some.mp hp).1
  refine ⟨p, (analyzeBatch (pre ++ [imgI]) []).2.length + q2, by omega, ?_, ?_⟩
  · rw [hout, List.get?_append hplen]
    exact hp
  · rw [hout, List.get?_append_right (by omega)]
    have harith : (analyzeBatch (pre ++ [imgI]) []).2.length + q2
        - (analyzeBatch (pre ++ [imgI]) []).2.length = q2 := by omega
    rw [harith]
    exact hq2

/-- C7 witness: a two-image batch; the first image's kept item precedes
the second image's in the output. -/
theorem order_preservation_witness :
    ∃ p q : Nat, p < q
      ∧ (analyze_for_resellable_objects
          ([] ++ (⟨"img1", [((0, 0, 2, 2), "book")], ["book"]⟩ : ImageInput)
            :: [] ++ (⟨"img2", [((1, 1, 3, 3), "tv")], ["tv"]⟩ : ImageInput) :: [])).get? p
          = some ⟨"img1", "book", (0, 0, 2, 2)⟩
      ∧ (analyze_for_resellable_objects
          ([] ++ (⟨"img1", [((0, 0, 2, 2), "book")], ["book"]⟩ : ImageInput)
            :: [] ++ (⟨"img2", [((1, 1, 3, 3), "tv")], ["tv"]⟩ : ImageInput) :: [])).get? q
          = some ⟨"img2", "tv", (1, 1, 3, 3)⟩ :=
  order_preservation [] ⟨"img1", [((0, 0, 2, 2), "book")], ["book"]⟩ []
    ⟨"img2", [((1, 1, 3, 3), "tv")], ["tv"]⟩ []
    ⟨"img1", "book", (0, 0, 2, 2)⟩ ⟨"img2", "tv", (1, 1, 3, 3)⟩
    (by decide) (by decide) (by decide) (by decide) (by decide)

end OD

end DeClutter
